import Mathlib

/-!
Verification of the Swagger 1.2 → OpenAPI 3.0 conversion engine
(`scripts/generate-openapi.js`).

The JavaScript source is shallowly embedded: JS strings are Lean `String`
(or `List Char` for the textual reference-repair pass), optional / possibly
`undefined` JSON fields are `Option`, JS objects used as keyed maps are
association lists with insert-or-overwrite-in-place update (mirroring JS
property-assignment semantics, which keeps the original key position on
overwrite), and JS truthiness of a string value is "non-empty".
HTTP status codes travel as JSON numbers in the input and are converted to
strings by the source (`String(rm.code)`); the embedding models a code as
`Option Nat` and performs the same decimal conversion.
-/

namespace GraylogConv

/-! ### Generic string / list helpers -/

/-- `charsStarts pre s` is true iff `pre` is a leading segment of `s`
(character-list form of JS `s.startsWith(pre)`). -/
def charsStarts : List Char → List Char → Bool
  | [], _ => true
  | _ :: _, [] => false
  | a :: as, b :: bs => a == b && charsStarts as bs

/-- JS `s.startsWith(pre)`. -/
def strStarts (s pre : String) : Bool :=
  charsStarts pre.toList s.toList

/-- `charsHas sub s` is true iff `sub` occurs contiguously inside `s`
(character-list form of JS `s.includes(sub)`). -/
def charsHas (sub : List Char) : List Char → Bool
  | [] => charsStarts sub []
  | c :: cs => charsStarts sub (c :: cs) || charsHas sub cs

/-- JS `s.includes(sub)`. -/
def strHas (s sub : String) : Bool :=
  charsHas sub.toList s.toList

/-- Split a character list at every separator recognized by `p`,
keeping empty pieces (JS `String.prototype.split` semantics). -/
def splitChars (p : Char → Bool) : List Char → List (List Char)
  | [] => [[]]
  | c :: cs =>
    let rest := splitChars p cs
    if p c then [] :: rest
    else
      match rest with
      | [] => [[c]]
      | piece :: more => (c :: piece) :: more

/-- JS `s.split(sep-class)` for a one-character class given by `p`. -/
def strSplit (p : Char → Bool) (s : String) : List String :=
  (splitChars p s.toList).map List.asString

/-- Join strings with a separator (JS array join). -/
def joinSep (sep : String) : List String → String
  | [] => ""
  | [x] => x
  | x :: y :: rest => x ++ sep ++ joinSep sep (y :: rest)

/-- ASCII lower-casing of one character (JS `toLowerCase` on the
character set appearing in HTTP methods). -/
def asciiLower (c : Char) : Char :=
  if 'A' ≤ c ∧ c ≤ 'Z' then Char.ofNat (c.toNat + 32) else c

/-- JS `s.toLowerCase()` (ASCII). -/
def strLower (s : String) : String :=
  (s.toList.map asciiLower).asString

/-- ASCII upper-casing of one character (JS `toUpperCase`). -/
def asciiUpper (c : Char) : Char :=
  if 'a' ≤ c ∧ c ≤ 'z' then Char.ofNat (c.toNat - 32) else c

/-- JS truthiness for an optional string field: `undefined` and the empty
string are falsy. -/
def optStr (o : Option String) : String := o.getD ""

/-- Lookup in a JS-object-as-map modelled by an association list. -/
def lookupAssoc {α : Type} (m : List (String × α)) (k : String) : Option α :=
  match m with
  | [] => none
  | (k', v) :: rest => if k' == k then some v else lookupAssoc rest k

/-- JS property assignment `m[k] = v`: overwrite in place if the key is
present (keeping its position), otherwise append. -/
def updateAssoc {α : Type} (m : List (String × α)) (k : String) (v : α) :
    List (String × α) :=
  match m with
  | [] => [(k, v)]
  | (k', v') :: rest =>
    if k' == k then (k, v) :: rest else (k', v') :: updateAssoc rest k v

/-- First-occurrence-preserving deduplication
(JS `Array.from(new Set(xs))`). -/
def dedupKeep (seen : List String) : List String → List String
  | [] => []
  | t :: ts => if seen.contains t then dedupKeep seen ts
               else t :: dedupKeep (t :: seen) ts

/-! ### Domain categorization (`categorizePath`, source lines 71–93) -/

/-- `categorizePath` from `generate-openapi.js`: the ordered first-match
rule chain assigning a domain category to an API path. -/
def categorizePath (path : String) : String :=
  if strStarts path "/system/" || strStarts path "/cluster/" then "core-system"
  else if strStarts path "/streams" then "core-streams"
  else if strStarts path "/search" || strStarts path "/views/search" ||
          strStarts path "/messages" then "core-search"
  else if strStarts path "/events" then "core-events"
  else if strStarts path "/users" || strStarts path "/roles" ||
          strStarts path "/authz" then "core-users"
  else if strStarts path "/inputs" then "core-inputs"
  else if strStarts path "/dashboards" ||
          (strStarts path "/views" && !(strHas path "search")) then "core-dashboard"
  else if strHas path "archive" then "plugin-archive"
  else if strHas path "security" || strHas path "investigations" ||
          strHas path "teams" then "plugin-security"
  else if strHas path "illuminate" || strHas path "bundles" then "plugin-illuminate"
  else if strHas path "integrations" || strHas path "aws" || strHas path "azure" ||
          strHas path "crowdstrike" || strHas path "okta" ||
          strHas path "mimecast" then "plugin-integrations"
  else if strHas path "datawarehouse" || strHas path "data_warehouse" then "plugin-datawarehouse"
  else if strHas path "forwarder" then "plugin-forwarder"
  else if strHas path "license" then "plugin-license"
  else if strHas path "report" then "plugin-reports"
  else if strStarts path "/sidecar" then "plugin-sidecar"
  else "misc-admin"

/-- The 17 fixed domain categories (the keys of the source's `tagMap`). -/
def allCategories : List String :=
  ["core-system", "core-streams", "core-search", "core-events", "core-users",
   "core-inputs", "core-dashboard", "plugin-archive", "plugin-security",
   "plugin-illuminate", "plugin-integrations", "plugin-datawarehouse",
   "plugin-forwarder", "plugin-license", "plugin-reports", "plugin-sidecar",
   "misc-admin"]

/-- `getTagForCategory` from the source: flat human tag per category. -/
def getTagForCategory (category : String) : String :=
  if category == "core-system" then "System"
  else if category == "core-streams" then "Streams"
  else if category == "core-search" then "Search"
  else if category == "core-events" then "Events"
  else if category == "core-users" then "Users"
  else if category == "core-inputs" then "Inputs"
  else if category == "core-dashboard" then "Dashboards"
  else if category == "plugin-archive" then "Archive Plugin"
  else if category == "plugin-security" then "Security Plugin"
  else if category == "plugin-illuminate" then "Illuminate Plugin"
  else if category == "plugin-integrations" then "Integrations"
  else if category == "plugin-datawarehouse" then "Data Warehouse Plugin"
  else if category == "plugin-forwarder" then "Forwarder Plugin"
  else if category == "plugin-license" then "License Plugin"
  else if category == "plugin-reports" then "Reports Plugin"
  else if category == "plugin-sidecar" then "Sidecar Plugin"
  else if category == "misc-admin" then "Administration"
  else "Other"

/-! ### Hierarchical tags (`titleize` / `pathToHierTag`, source lines 31–51) -/

/-- Body of `titleize`'s `.map`: a word made only of capitals/digits is kept
(`/^[A-Z0-9]+$/` — the empty word fails the `+`), otherwise its first
character is upper-cased (`charAt(0).toUpperCase() + slice(1)`). -/
def capWord (w : String) : String :=
  match w.toList with
  | [] => ""
  | c :: cs =>
    if (c :: cs).all (fun ch => ch.isUpper || ch.isDigit) then w
    else (asciiUpper c :: cs).asString

/-- `titleize` from the source: a segment containing a dot is returned
verbatim; otherwise it is split on `-`/`_`, each word capitalized, and the
words joined with a space. -/
def titleize (seg : String) : String :=
  if seg == "" then seg
  else if strHas seg "." then seg
  else joinSep " " ((strSplit (fun c => c == '-' || c == '_') seg).map capWord)

/-- `pathToHierTag` from the source: split the resource path on `/`, drop
empty segments (`filter(Boolean)`), titleize each, re-join with `/`. -/
def pathToHierTag (resourcePath : Option String) : String :=
  let rp := optStr resourcePath
  if rp == "" then ""
  else joinSep "/"
    (((strSplit (fun c => c == '/') rp).filter (fun s => s != "")).map titleize)

/-! ### Source data model (Swagger 1.2 descriptor shapes) -/

/-- Swagger 1.2 parameter descriptor. Missing JSON fields are `none`;
`paramType` is compared by strict string equality in the source, so an
absent `paramType` is modelled as `""` (hitting the same default branch). -/
structure Param where
  name : String := ""
  description : Option String := none
  paramType : String := ""
  type : Option String := none
  required : Option Bool := none
  defaultValue : Option String := none
  enum : Option (List String) := none
deriving Repr, DecidableEq

/-- One `responseMessages` entry (`{code, message}`). -/
structure RM where
  code : Option Nat := none
  message : Option String := none
deriving Repr, DecidableEq

/-- Swagger 1.2 operation descriptor. -/
structure Op where
  method : Option String := none
  nickname : Option String := none
  summary : Option String := none
  notes : Option String := none
  parameters : Option (List Param) := none
  responseMessages : Option (List RM) := none
  type : Option String := none
  produces : Option (List String) := none
deriving Repr, DecidableEq

/-! ### Target (OpenAPI 3.0) shapes -/

/-- Schema position used by request/response bodies: either
`{'$ref': '#/components/schemas/<name>'}` (modelled by `ref name`)
or `{type: 'object'}` (modelled by `obj`). -/
inductive BodySchema where
  | ref (name : String)
  | obj
deriving Repr, DecidableEq

/-- Converted parameter `schema` block. -/
structure ParamSchema where
  type : String
  default : Option String := none
  enum : Option (List String) := none
deriving Repr, DecidableEq

/-- Converted (non-body) parameter. `inn` is the OpenAPI `in` field
(`in` is a reserved word in Lean). -/
structure ConvParam where
  name : String
  description : String
  inn : String
  required : Bool
  schema : ParamSchema
deriving Repr, DecidableEq

/-- Converted `requestBody`; its content map is keyed by media type. -/
structure RequestBody where
  required : Bool
  description : Option String := none
  content : List (String × BodySchema)
deriving Repr, DecidableEq

/-- One converted response-map entry. -/
structure RespEntry where
  description : String
  content : Option (List (String × BodySchema)) := none
deriving Repr, DecidableEq

/-- Converted operation. -/
structure Operation where
  summary : String
  operationId : String
  description : Option String := none
  tags : List String
  parameters : Option (List ConvParam) := none
  requestBody : Option RequestBody := none
  responses : List (String × RespEntry)
deriving Repr, DecidableEq

/-! ### Parameter conversion (`convertParameter` / `mapSwaggerType`,
source lines 96–142) -/

/-- `mapSwaggerType`: fixed lookup table, unknown names pass through. -/
def mapSwaggerType (swaggerType : String) : String :=
  if swaggerType == "int" then "integer"
  else if swaggerType == "long" then "integer"
  else if swaggerType == "float" then "number"
  else if swaggerType == "double" then "number"
  else if swaggerType == "byte" then "string"
  else if swaggerType == "binary" then "string"
  else if swaggerType == "date" then "string"
  else if swaggerType == "dateTime" then "string"
  else if swaggerType == "password" then "string"
  else swaggerType

/-- `convertParameter`: body parameters yield `none` (JS `return null`);
everything else becomes a target parameter whose `in` falls back to
`query` for unknown locations. The source tests `path`/`query`/`header`
before the `body → null` arm; testing `body` first is the same decision
tree since `body` differs from all three. -/
def convertParameter (param : Param) : Option ConvParam :=
  if param.paramType == "body" then none
  else
    let t := optStr param.type
    some { name := param.name
           description := optStr param.description
           inn := if param.paramType == "path" then "path"
                  else if param.paramType == "query" then "query"
                  else if param.paramType == "header" then "header"
                  else "query"
           required := param.required.getD false
           schema := { type := mapSwaggerType (if t == "" then "string" else t)
                       default := param.defaultValue
                       enum := param.enum } }

/-! ### Response-code inference and the response map
(`convertOperation`, source lines 147–253) -/

/-- The decimal string forms of the success codes 200/201/202/204
(`SUCCESS_SET` in the source holds exactly these strings). -/
def successCodes : List String := ["200", "201", "202", "204"]

/-- First response-message walk key: `String(rm.code || '')` — a missing
or zero code is JS-falsy and becomes the empty string. -/
def codeStrScan (rm : RM) : String :=
  match rm.code with
  | some c => if c == 0 then "" else toString c
  | none => ""

/-- Second response-message walk key: `String(resp.code)` (JS renders a
missing code as the string `undefined`). -/
def codeStrMerge (rm : RM) : String :=
  match rm.code with
  | some c => toString c
  | none => "undefined"

/-- The scan loop of `convertOperation`: keep the first success-ish code
of `responseMessages`, in source order (`for … break`). -/
def firstSuccessCode : List RM → Option String
  | [] => none
  | rm :: rest =>
    let c := codeStrScan rm
    if successCodes.contains c then some c else firstSuccessCode rest

/-- The chosen primary success code: the explicit match when present,
otherwise the method-based fallbacks of source lines 211–216. -/
def chosenSuccessCode (op : Op) (path method : String) : String :=
  match firstSuccessCode (op.responseMessages.getD []) with
  | some c => c
  | none =>
    if method == "delete" then "204"
    else if method == "put" && op.type == some "void" then "204"
    else if method == "post" && !(strHas path "\x7b") then "201"
    else "200"

/-- One step of the second `responseMessages` walk (source lines 238–249):
the chosen success code keeps its content and only its description is
overwritten (`message || previous || 'Successful response'`); any other
code gets a description-only entry. -/
def respStep (successCode : String) (resps : List (String × RespEntry))
    (rm : RM) : List (String × RespEntry) :=
  let code := codeStrMerge rm
  let message := optStr rm.message
  if code == successCode then
    let old := (lookupAssoc resps code).getD { description := "", content := none }
    let d := if message != "" then message
             else if old.description != "" then old.description
             else "Successful response"
    updateAssoc resps code { description := d, content := old.content }
  else
    updateAssoc resps code { description := message, content := none }

/-- The `requestBody` built from the first body parameter
(source lines 178–193). -/
def mkRequestBody (bodyParam : Param) : RequestBody :=
  let t := optStr bodyParam.type
  { required := bodyParam.required.getD false
    description := if optStr bodyParam.description != "" then bodyParam.description else none
    content := [("application/json",
      if t != "" && t != "any" then BodySchema.ref t else BodySchema.obj)] }

/-- `operationId` fallback: `${method}_${path.replace(/[^a-zA-Z0-9]/g, '_')}`. -/
def sanitizePath (path : String) : String :=
  (path.toList.map (fun c => if c.isAlphanum then c else '_')).asString

/-- `convertOperation` from the source. The enclosing
`op.parameters && op.parameters.length > 0` guard is behaviorally the
same as folding the (possibly empty) parameter list directly — an empty
or absent list yields no `parameters` and no `requestBody` either way. -/
def convertOperation (op : Op) (path method : String) (flatTag : String)
    (hierTag : Option String) : Operation :=
  let operationId :=
    if optStr op.nickname != "" then optStr op.nickname
    else method ++ "_" ++ sanitizePath path
  let tags := dedupKeep []
    ((if flatTag != "" then [flatTag] else []) ++
     (if optStr hierTag != "" then [optStr hierTag] else []))
  let ps := op.parameters.getD []
  let regulars := ps.filter (fun p => p.paramType != "body")
  let bodyParam := ps.find? (fun p => p.paramType == "body")
  let parameters : Option (List ConvParam) :=
    if regulars.length > 0 then some (regulars.filterMap convertParameter) else none
  let requestBody : Option RequestBody := bodyParam.map mkRequestBody
  let sc := chosenSuccessCode op path method
  let opType := optStr op.type
  let baseEntry : RespEntry :=
    { description := "Successful response"
      content :=
        if sc != "204" && op.type != some "void" then
          some ((op.produces.getD ["application/json"]).map (fun mt =>
            (mt, if opType != "" && opType != "any" then BodySchema.ref opType
                 else BodySchema.obj)))
        else none }
  let responses := (op.responseMessages.getD []).foldl (respStep sc) [(sc, baseEntry)]
  { summary := optStr op.summary
    operationId := operationId
    description := if optStr op.notes != "" then op.notes else none
    tags := tags
    parameters := parameters
    requestBody := requestBody
    responses := responses }

/-! ### The endpoint fold of `generateOpenAPI` (source lines 400–430) -/

/-- One `apis` entry of a descriptor document. -/
structure ApiEntry where
  path : Option String := none
  operations : Option (List Op) := none
deriving Repr, DecidableEq

/-- One descriptor document, restricted to the fields the path-processing
fold reads (`models`/`description`/`name` feed the schema and tag-metadata
accumulators, which are independent of this fold). -/
structure Endpoint where
  resourcePath : Option String := none
  apis : Option (List ApiEntry) := none
deriving Repr, DecidableEq

/-- The `domainPaths` accumulator: category → path → method → operation. -/
def DomainPaths : Type :=
  List (String × List (String × List (String × Operation)))

/-- `domainPaths[category][path][method] = op` with JS auto-vivification of
the two outer levels. -/
def upsert3 (dp : DomainPaths) (category p method : String) (o : Operation) :
    DomainPaths :=
  let cur2 := (lookupAssoc dp category).getD []
  let cur1 := (lookupAssoc cur2 p).getD []
  updateAssoc dp category (updateAssoc cur2 p (updateAssoc cur1 method o))

/-- Body of the `api.operations.forEach` loop (source lines 414–426). -/
def processOp (resourcePath : Option String) (category p : String)
    (dp : DomainPaths) (op : Op) : DomainPaths :=
  let method := strLower (if optStr op.method != "" then optStr op.method else "GET")
  let flatTag := getTagForCategory category
  let htag := pathToHierTag resourcePath
  let finalHierTag : Option String :=
    if htag != "" then (if htag != flatTag then some htag else none) else none
  upsert3 dp category p method (convertOperation op p method flatTag finalHierTag)

/-- Body of the `endpoint.apis.forEach` loop: the
`if (api.path && api.operations)` guard skips entries whose path is
missing or empty (a JS array — even an empty one — is truthy). -/
def processApi (resourcePath : Option String) (dp : DomainPaths)
    (api : ApiEntry) : DomainPaths :=
  if optStr api.path != "" && api.operations.isSome then
    let p := optStr api.path
    let category := categorizePath p
    (api.operations.getD []).foldl (processOp resourcePath category p) dp
  else dp

/-- Processing of one descriptor document's `apis`. -/
def processEndpoint (dp : DomainPaths) (e : Endpoint) : DomainPaths :=
  (e.apis.getD []).foldl (processApi e.resourcePath) dp

/-- The path-processing fold of `generateOpenAPI` over the whole input
list, producing the `domainPaths` accumulator. -/
def processEndpoints (endpoints : List Endpoint) : DomainPaths :=
  endpoints.foldl processEndpoint []

/-! ### Schema classification (source lines 440–452) -/

/-- The plugin-bucket test: name contains `plugin` or `Plugin`. -/
def isPluginName (n : String) : Bool :=
  strHas n "plugin" || strHas n "Plugin"

/-- The common-bucket test: name contains `Response`/`Request` or is
exactly `Object`/`anyMap`/`integerMap`. -/
def isCommonName (n : String) : Bool :=
  strHas n "Response" || strHas n "Request" || n == "Object" ||
  n == "anyMap" || n == "integerMap"

/-- The classification fold of `generateOpenAPI` over the merged model
names, producing the (core, plugin, common) buckets. The model values
carried alongside each name are converted by `convertModel`, which is
independent of the bucketing decision. -/
def classifySchemas (names : List String) :
    List String × List String × List String :=
  names.foldl (fun acc n =>
    if isPluginName n then (acc.1, acc.2.1 ++ [n], acc.2.2)
    else if isCommonName n then (acc.1, acc.2.1, acc.2.2 ++ [n])
    else (acc.1 ++ [n], acc.2.1, acc.2.2)) ([], [], [])

/-! ### Primitive-reference repair (source lines 684–713)

The repair pass is textual: for each primitive type name it replaces every
occurrence of the regex ``\$ref: ['"]#/components/schemas/<type>['"]``
in a generated file's content by ``type: <type>`` (global regex replace:
leftmost, non-overlapping). File contents are modelled as `List Char`. -/

/-- The fixed primitive type names of the repair pass. -/
def primitiveTypes : List String :=
  ["string", "integer", "number", "boolean", "array", "object", "any"]

/-- The two quote characters matched by the regex class `['"]`
(single quote is code point 39, double quote 34). -/
def quoteChars : List Char := [Char.ofNat 39, Char.ofNat 34]

/-- Whether a character is one of the two quotes. -/
def isQuote (c : Char) : Bool := c == Char.ofNat 39 || c == Char.ofNat 34

/-- Consume a literal from the front of a character list. -/
def dropLit : List Char → List Char → Option (List Char)
  | [], s => some s
  | _ :: _, [] => none
  | a :: as, b :: bs => if a == b then dropLit as bs else none

/-- Try to match the regex
``\$ref: ['"]#/components/schemas/<t>['"]`` at the head of `s`,
returning the remainder after the match. The two quotes are matched
independently, exactly as the two character classes of the regex. -/
def tryMatch (t : List Char) (s : List Char) : Option (List Char) :=
  (dropLit "$ref: ".toList s).bind fun s1 =>
    match s1 with
    | [] => none
    | q1 :: s2 =>
      if isQuote q1 then
        (dropLit "#/components/schemas/".toList s2).bind fun s3 =>
          (dropLit t s3).bind fun s4 =>
            match s4 with
            | [] => none
            | q2 :: s5 => if isQuote q2 then some s5 else none
      else none

/-- The replacement text `type: <t>`. -/
def repl (t : List Char) : List Char := "type: ".toList ++ t

/-- One fully-matched occurrence of the pattern, parameterized by the two
quote characters. -/
def pat (q1 q2 : Char) (t : List Char) : List Char :=
  "$ref: ".toList ++ q1 :: ("#/components/schemas/".toList ++ (t ++ [q2]))

theorem dropLit_append (lit r : List Char) : dropLit lit (lit ++ r) = some r := by
  induction lit with
  | nil => rfl
  | cons a as ih => simp [dropLit, ih]

theorem dropLit_some {lit s r : List Char} (h : dropLit lit s = some r) :
    s = lit ++ r := by
  induction lit generalizing s with
  | nil => cases s <;> simpa [dropLit] using h
  | cons a as ih =>
    cases s with
    | nil => simp [dropLit] at h
    | cons b bs =>
      by_cases hab : a = b
      · subst hab
        simp only [dropLit, beq_self_eq_true, if_true] at h
        simp [ih h]
      · simp [dropLit, hab] at h

theorem tryMatch_some {t s r : List Char} (h : tryMatch t s = some r) :
    ∃ q1 q2, isQuote q1 = true ∧ isQuote q2 = true ∧ s = pat q1 q2 t ++ r := by
  unfold tryMatch at h
  rw [Option.bind_eq_some] at h
  obtain ⟨s1, h1, h⟩ := h
  cases s1 with
  | nil => simp at h
  | cons q1 s2 =>
    by_cases hq1 : isQuote q1 = true
    · simp only [hq1, if_true] at h
      rw [Option.bind_eq_some] at h
      obtain ⟨s3, h2, h⟩ := h
      rw [Option.bind_eq_some] at h
      obtain ⟨s4, h3, h⟩ := h
      cases s4 with
      | nil => simp at h
      | cons q2 s5 =>
        by_cases hq2 : isQuote q2 = true
        · simp only [hq2, if_true, Option.some.injEq] at h
          subst h
          refine ⟨q1, q2, hq1, hq2, ?_⟩
          have e1 := dropLit_some h1
          have e2 := dropLit_some h2
          have e3 := dropLit_some h3
          simp [e1, e2, e3, pat]
        · simp [hq2] at h
    · simp [hq1] at h

theorem tryMatch_pat {t r : List Char} {q1 q2 : Char}
    (hq1 : isQuote q1 = true) (hq2 : isQuote q2 = true) :
    tryMatch t (pat q1 q2 t ++ r) = some r := by
  unfold tryMatch pat
  simp [List.cons_append, List.append_assoc, dropLit, dropLit_append, hq1, hq2]

theorem tryMatch_length {t s r : List Char} (h : tryMatch t s = some r) :
    r.length < s.length := by
  obtain ⟨q1, q2, -, -, rfl⟩ := tryMatch_some h
  simp [pat]
  omega

/-- Global leftmost, non-overlapping replacement of the pattern for `t`
by `type: <t>` (JS `content.replace(refPattern, ...)` with the `g` flag). -/
def replRA (t : List Char) : List Char → List Char
  | [] => []
  | c :: cs =>
    match h : tryMatch t (c :: cs) with
    | some rest => repl t ++ replRA t rest
    | none => c :: replRA t cs
termination_by s => s.length
decreasing_by
  · exact tryMatch_length h
  · simp

/-- The whole repair pass over one file content: each primitive type's
pattern replaced in turn (the source's `primitiveTypes.forEach`; the
`if (content.match(...))`-guarded write is a no-op when nothing matched). -/
def fixPrimitiveRefs (content : List Char) : List Char :=
  (primitiveTypes.map String.toList).foldl (fun acc t => replRA t acc) content

/-- The repair pass over the whole produced document set. -/
def referenceRepair (docs : List (List Char)) : List (List Char) :=
  docs.map fixPrimitiveRefs

/-! ### Idempotence machinery for the repair pass -/

/-- Whether the pattern for `t` matches anywhere in `s`. -/
def hasMatch (t : List Char) : List Char → Bool
  | [] => false
  | c :: cs => (tryMatch t (c :: cs)).isSome || hasMatch t cs

theorem replRA_nil (t : List Char) : replRA t [] = [] := by
  rw [replRA]

theorem replRA_id {t s : List Char} (h : hasMatch t s = false) :
    replRA t s = s := by
  induction s with
  | nil => exact replRA_nil t
  | cons c cs ih =>
    simp only [hasMatch, Bool.or_eq_false_iff] at h
    obtain ⟨h1, h2⟩ := h
    rw [replRA]
    split
    · next rest hr => rw [hr] at h1; simp at h1
    · exact congrArg (c :: ·) (ih h2)

theorem charsStarts_iff {w s : List Char} :
    charsStarts w s = true ↔ ∃ z, s = w ++ z := by
  induction w generalizing s with
  | nil => simp [charsStarts]
  | cons a as ih =>
    cases s with
    | nil => simp [charsStarts]
    | cons b bs =>
      simp only [charsStarts, Bool.and_eq_true, beq_iff_eq, ih, List.cons_append,
        List.cons.injEq]
      constructor
      · rintro ⟨rfl, z, rfl⟩; exact ⟨z, rfl, rfl⟩
      · rintro ⟨z, rfl, rfl⟩; exact ⟨rfl, z, rfl⟩

theorem charsStarts_append (w z : List Char) : charsStarts w (w ++ z) = true :=
  charsStarts_iff.mpr ⟨z, rfl⟩

theorem starts_append_overlap {w r z : List Char}
    (h : charsStarts w (r ++ z) = true) : w.take r.length = r.take w.length := by
  induction w generalizing r z with
  | nil => simp
  | cons a as ih =>
    cases r with
    | nil => simp
    | cons b bs =>
      simp only [List.cons_append, charsStarts, Bool.and_eq_true, beq_iff_eq] at h
      obtain ⟨rfl, h2⟩ := h
      simp [ih h2]

/-- All suffixes of a list starting at index ≥ 1 (the empty one included). -/
def strictTails : List Char → List (List Char)
  | [] => []
  | _ :: cs => cs :: strictTails cs

theorem strictTails_step {p : List Char} {x : Char} {xs : List Char}
    (h : (x :: xs) ∈ strictTails p) : xs ∈ strictTails p := by
  induction p with
  | nil => simp [strictTails] at h
  | cons a rest ih =>
    simp only [strictTails, List.mem_cons] at h ⊢
    cases h with
    | inl he =>
      right
      rw [← he]
      simp [strictTails]
    | inr hm => right; exact ih hm

/-- The four quote-variant instances of the pattern for `t`. -/
def patVariants (t : List Char) : List (List Char) :=
  (quoteChars.map (fun q1 => quoteChars.map (fun q2 => pat q1 q2 t))).flatten

theorem isQuote_mem {q : Char} (h : isQuote q = true) : q ∈ quoteChars := by
  simp only [isQuote, Bool.or_eq_true, beq_iff_eq] at h
  rcases h with h | h <;> simp [quoteChars, h]

theorem pat_mem_variants {t : List Char} {q1 q2 : Char}
    (h1 : isQuote q1 = true) (h2 : isQuote q2 = true) :
    pat q1 q2 t ∈ patVariants t := by
  simp only [patVariants, List.mem_flatten, List.mem_map]
  exact ⟨_, ⟨q1, isQuote_mem h1, rfl⟩, List.mem_map.mpr ⟨q2, isQuote_mem h2, rfl⟩⟩

/-- The pattern with its leading `$` removed. -/
def patTail (q1 q2 : Char) (t : List Char) : List Char :=
  'r' :: 'e' :: 'f' :: ':' :: ' ' :: q1 ::
    ("#/components/schemas/".toList ++ (t ++ [q2]))

theorem pat_eq (q1 q2 : Char) (t : List Char) :
    pat q1 q2 t = '$' :: patTail q1 q2 t := by
  simp [pat, patTail]

theorem patTail_mem (q1 q2 : Char) (t : List Char) :
    patTail q1 q2 t ∈ strictTails (pat q1 q2 t) := by
  rw [pat_eq]
  simp [strictTails]

theorem patTail_ne (q1 q2 : Char) (t : List Char) : patTail q1 q2 t ≠ [] := by
  simp [patTail]

/-- Overlap compatibility of a pattern tail `w` with a replacement text
`r`: they agree on their common length. -/
def clash (w r : List Char) : Bool := decide (w.take r.length = r.take w.length)

/-- Side condition: no nonempty proper tail of any quote-variant of the
pattern for `t` is overlap-compatible with the replacement text for `tp`.
This is what makes a replacement chunk unable to take part in a new match
of the pattern for `t`. -/
def tailsClashFree (t tp : List Char) : Bool :=
  (patVariants t).all fun p =>
    (strictTails p).all fun w => w.isEmpty || !(clash w (repl tp))

/-- Side condition: the replacement text contains no `$`. -/
def noDollar (r : List Char) : Bool := r.all (fun c => c != '$')

/-- A prefix of the output of `replRA tp` that is a nonempty proper tail
of a pattern variant for `t` was already a prefix of the input: thanks to
`tailsClashFree`, such a tail can never overlap a replacement chunk. -/
theorem key {t tp : List Char} (hA : tailsClashFree t tp = true) :
    ∀ (cs w : List Char), w ≠ [] →
      (∃ p ∈ patVariants t, w ∈ strictTails p) →
      charsStarts w (replRA tp cs) = true → charsStarts w cs = true := by
  intro cs
  induction cs with
  | nil =>
    intro w hw hmem hs
    cases w with
    | nil => exact absurd rfl hw
    | cons a as => rw [replRA] at hs; simp [charsStarts] at hs
  | cons c cs ih =>
    intro w hw hmem hs
    rw [replRA] at hs
    split at hs
    · next rest hr =>
      exfalso
      have hov := starts_append_overlap hs
      obtain ⟨p, hp, hwp⟩ := hmem
      simp only [tailsClashFree, List.all_eq_true] at hA
      have hfree := hA p hp w hwp
      cases w with
      | nil => exact hw rfl
      | cons a as =>
        simp only [List.isEmpty_cons, Bool.false_or, Bool.not_eq_true'] at hfree
        rw [show clash (a :: as) (repl tp) = true from decide_eq_true hov] at hfree
        exact Bool.noConfusion hfree
    · next hr =>
      cases w with
      | nil => exact absurd rfl hw
      | cons a as =>
        simp only [charsStarts, Bool.and_eq_true, beq_iff_eq] at hs ⊢
        obtain ⟨rfl, hs2⟩ := hs
        refine ⟨rfl, ?_⟩
        cases as with
        | nil => cases cs <;> simp [charsStarts]
        | cons b bs =>
          obtain ⟨p, hp, hwp⟩ := hmem
          exact ih (b :: bs) (by simp) ⟨p, hp, strictTails_step hwp⟩ hs2

theorem hasMatch_append_no {t a b : List Char}
    (hb : hasMatch t b = false)
    (ha : ∀ v, v ≠ [] → (∃ u, a = u ++ v) → tryMatch t (v ++ b) = none) :
    hasMatch t (a ++ b) = false := by
  induction a with
  | nil => simpa using hb
  | cons c a' ih =>
    simp only [List.cons_append, hasMatch, Bool.or_eq_false_iff]
    refine ⟨?_, ?_⟩
    · have h0 := ha (c :: a') (by simp) ⟨[], rfl⟩
      simp only [List.cons_append] at h0
      simp [h0]
    · exact ih (fun v hv hex => by
        obtain ⟨u, hu⟩ := hex
        exact ha v hv ⟨c :: u, by simp [hu]⟩)

theorem hasMatch_suffix {t u v : List Char} (h : hasMatch t (u ++ v) = false) :
    hasMatch t v = false := by
  induction u with
  | nil => simpa using h
  | cons c u' ih =>
    simp only [List.cons_append, hasMatch, Bool.or_eq_false_iff] at h
    exact ih h.2

/-- Core no-new-match theorem: running `replRA tp` leaves no match of the
pattern for `t`, provided either `t = tp` (replacement removes them all)
or the input had none to begin with. -/
theorem replRA_preserves {t tp : List Char}
    (hA : tailsClashFree t tp = true) (hD : noDollar (repl tp) = true) :
    ∀ s, (t = tp ∨ hasMatch t s = false) → hasMatch t (replRA tp s) = false := by
  have main : ∀ n (s : List Char), s.length ≤ n →
      (t = tp ∨ hasMatch t s = false) → hasMatch t (replRA tp s) = false := by
    intro n
    induction n with
    | zero =>
      intro s hs _
      have : s = [] := List.length_eq_zero.mp (Nat.le_zero.mp hs)
      subst this
      rw [replRA_nil]
      rfl
    | succ n ihn =>
      intro s hs h
      cases s with
      | nil => rw [replRA_nil]; rfl
      | cons c cs =>
        rw [replRA]
        split
        · next rest hr =>
          have hlen : rest.length ≤ n := by
            have h1 := tryMatch_length hr
            simp only [List.length_cons] at h1 hs
            omega
          have hrest : hasMatch t (replRA tp rest) = false := by
            apply ihn rest hlen
            cases h with
            | inl he => exact Or.inl he
            | inr hf =>
              right
              obtain ⟨q1, q2, -, -, heq⟩ := tryMatch_some hr
              rw [heq] at hf
              exact hasMatch_suffix hf
          apply hasMatch_append_no hrest
          intro v hv hex
          obtain ⟨u, hu⟩ := hex
          cases hm : tryMatch t (v ++ replRA tp rest) with
          | none => rfl
          | some r2 =>
            exfalso
            obtain ⟨q1, q2, -, -, heq2⟩ := tryMatch_some hm
            cases v with
            | nil => exact hv rfl
            | cons x v' =>
              rw [pat_eq] at heq2
              simp only [List.cons_append, List.cons.injEq] at heq2
              obtain ⟨rfl, -⟩ := heq2
              have hmemd : ('$' : Char) ∈ repl tp := by
                rw [hu]; simp
              simp only [noDollar, List.all_eq_true] at hD
              have := hD _ hmemd
              simp at this
        · next hr =>
          simp only [hasMatch, Bool.or_eq_false_iff]
          have hTail : t = tp ∨ hasMatch t cs = false := by
            cases h with
            | inl he => exact Or.inl he
            | inr hf =>
              right
              simp only [hasMatch, Bool.or_eq_false_iff] at hf
              exact hf.2
          refine ⟨?_, ihn cs (by simp at hs; omega) hTail⟩
          cases hm : tryMatch t (c :: replRA tp cs) with
          | none => rfl
          | some r2 =>
            exfalso
            obtain ⟨q1, q2, hq1m, hq2m, heq2⟩ := tryMatch_some hm
            rw [pat_eq] at heq2
            simp only [List.cons_append, List.cons.injEq] at heq2
            obtain ⟨rfl, htl⟩ := heq2
            have hstart : charsStarts (patTail q1 q2 t) (replRA tp cs) = true := by
              rw [htl]; exact charsStarts_append _ _
            have hcs : charsStarts (patTail q1 q2 t) cs = true :=
              key hA cs _ (patTail_ne q1 q2 t)
                ⟨pat q1 q2 t, pat_mem_variants hq1m hq2m, patTail_mem q1 q2 t⟩ hstart
            obtain ⟨z, hz⟩ := charsStarts_iff.mp hcs
            have hsome : tryMatch t ('$' :: cs) = some z := by
              rw [hz, ← List.cons_append, ← pat_eq]
              exact tryMatch_pat hq1m hq2m
            cases h with
            | inl he =>
              rw [he] at hsome
              rw [hsome] at hr
              exact Option.noConfusion hr
            | inr hf =>
              simp only [hasMatch, Bool.or_eq_false_iff] at hf
              rw [hsome] at hf
              simp at hf
  exact fun s => main s.length s le_rfl

theorem foldl_keeps_clean {t : List Char} :
    ∀ (ts : List (List Char)) (acc : List Char),
      (∀ tp ∈ ts, tailsClashFree t tp = true ∧ noDollar (repl tp) = true) →
      hasMatch t acc = false →
      hasMatch t (ts.foldl (fun a tp => replRA tp a) acc) = false := by
  intro ts
  induction ts with
  | nil => intro acc _ h; exact h
  | cons tp rest ih =>
    intro acc hcond h
    simp only [List.foldl_cons]
    apply ih _ (fun x hx => hcond x (List.mem_cons_of_mem _ hx))
    obtain ⟨hA, hD⟩ := hcond tp (List.mem_cons_self _ _)
    exact replRA_preserves hA hD acc (Or.inr h)

theorem fold_clean :
    ∀ (ts : List (List Char)) (acc : List Char),
      (∀ t ∈ ts, ∀ tp ∈ ts, tailsClashFree t tp = true) →
      (∀ tp ∈ ts, noDollar (repl tp) = true) →
      ∀ t ∈ ts, hasMatch t (ts.foldl (fun a tp => replRA tp a) acc) = false := by
  intro ts
  induction ts with
  | nil => intro acc _ _ t ht; simp at ht
  | cons t0 rest ih =>
    intro acc hA hD t ht
    simp only [List.foldl_cons]
    rcases List.mem_cons.mp ht with rfl | hmem
    · apply foldl_keeps_clean rest (replRA t acc)
      · intro tp htp
        exact ⟨hA t ht tp (List.mem_cons_of_mem _ htp),
               hD tp (List.mem_cons_of_mem _ htp)⟩
      · exact replRA_preserves (hA t ht t ht) (hD t ht) acc (Or.inl rfl)
    · exact ih (replRA t0 acc)
        (fun x hx y hy => hA x (List.mem_cons_of_mem _ hx) y (List.mem_cons_of_mem _ hy))
        (fun y hy => hD y (List.mem_cons_of_mem _ hy)) t hmem

theorem fold_id :
    ∀ (ts : List (List Char)) (acc : List Char),
      (∀ t ∈ ts, hasMatch t acc = false) →
      ts.foldl (fun a tp => replRA tp a) acc = acc := by
  intro ts
  induction ts with
  | nil => intro acc _; rfl
  | cons t0 rest ih =>
    intro acc h
    simp only [List.foldl_cons]
    rw [replRA_id (h t0 (List.mem_cons_self _ _))]
    exact ih acc (fun t ht => h t (List.mem_cons_of_mem _ ht))

theorem fixPrimitiveRefs_clean (s : List Char) :
    ∀ t ∈ primitiveTypes.map String.toList,
      hasMatch t (fixPrimitiveRefs s) = false := by
  apply fold_clean
  · decide
  · decide

theorem fixPrimitiveRefs_idem (s : List Char) :
    fixPrimitiveRefs (fixPrimitiveRefs s) = fixPrimitiveRefs s :=
  fold_id _ _ (fixPrimitiveRefs_clean s)

/-! ### Claim-side definitions and supporting lemmas -/

/-- Success-code inference exactly as the specification words it: the
first `responseMessages` entry whose code is one of 200/201/202/204
(their decimal string forms are the members of `successCodes`) is
adopted; otherwise DELETE → 204, PUT with response type `void` → 204,
POST on a path without `{` → 201, else 200. -/
def specSuccessCode (op : Op) (path method : String) : String :=
  match (op.responseMessages.getD []).find?
      (fun rm => successCodes.contains (codeStrScan rm)) with
  | some rm => codeStrScan rm
  | none =>
    if method == "delete" then "204"
    else if method == "put" && op.type == some "void" then "204"
    else if method == "post" && !(strHas path "\x7b") then "201"
    else "200"

theorem firstSuccessCode_eq (l : List RM) :
    firstSuccessCode l =
      (l.find? (fun rm => successCodes.contains (codeStrScan rm))).map codeStrScan := by
  induction l with
  | nil => rfl
  | cons rm rest ih =>
    simp only [firstSuccessCode, List.find?_cons]
    cases h : successCodes.contains (codeStrScan rm) with
    | true => simp [h]
    | false => simp [h, ih]

theorem lookup_update_self {α : Type} (m : List (String × α)) (k : String) (v : α) :
    lookupAssoc (updateAssoc m k v) k = some v := by
  induction m with
  | nil => simp [updateAssoc, lookupAssoc]
  | cons kv rest ih =>
    obtain ⟨k', v'⟩ := kv
    by_cases h : k' = k
    · simp [updateAssoc, lookupAssoc, h]
    · simp only [updateAssoc, lookupAssoc, beq_iff_eq, if_neg h]
      simpa [h] using ih

theorem lookup_update_other {α : Type} (m : List (String × α)) (k c : String)
    (v : α) (h : c ≠ k) :
    lookupAssoc (updateAssoc m k v) c = lookupAssoc m c := by
  induction m with
  | nil =>
    simp only [updateAssoc, lookupAssoc, beq_iff_eq]
    rw [if_neg (Ne.symm h)]
  | cons kv rest ih =>
    obtain ⟨k', v'⟩ := kv
    by_cases hk : k' = k
    · subst hk
      simp only [updateAssoc, beq_self_eq_true, if_true, lookupAssoc, beq_iff_eq]
      rw [if_neg (Ne.symm h), if_neg (Ne.symm h)]
    · simp only [updateAssoc, beq_iff_eq, if_neg hk, lookupAssoc]
      by_cases hc : k' = c <;> simp [hc, ih]

theorem keys_update {α : Type} (m : List (String × α)) (k : String) (v : α) :
    (updateAssoc m k v).map Prod.fst =
      if k ∈ m.map Prod.fst then m.map Prod.fst else m.map Prod.fst ++ [k] := by
  induction m with
  | nil => simp [updateAssoc]
  | cons kv rest ih =>
    obtain ⟨k', v'⟩ := kv
    by_cases hk : k' = k
    · subst hk
      simp [updateAssoc]
    · simp only [updateAssoc, beq_iff_eq, if_neg hk, List.map_cons]
      rw [ih]
      simp only [List.mem_cons]
      by_cases hmem : k ∈ rest.map Prod.fst
      · rw [if_pos hmem, if_pos (Or.inr hmem)]
      · rw [if_neg hmem,
          if_neg (fun hh => hh.elim (fun h1 => hk h1.symm) hmem)]
        rfl

/-! ### C2 — success-code inference -/

/-- C2: for every operation, path and method, the chosen success status
code is the first `responseMessages` code among {200, 201, 202, 204}
(in source order) when one exists, and otherwise the method heuristics:
DELETE → 204, PUT with response type `void` → 204, POST on a path
containing no `{` → 201, everything else → 200. -/
theorem c2_successCode (op : Op) (path method : String) :
    chosenSuccessCode op path method = specSuccessCode op path method := by
  unfold chosenSuccessCode specSuccessCode
  rw [firstSuccessCode_eq]
  cases (op.responseMessages.getD []).find?
      (fun rm => successCodes.contains (codeStrScan rm)) <;> rfl

/-! ### C4 — path categorization -/

theorem ite_mem {c : Prop} [Decidable c] {a b : String} {L : List String}
    (ha : a ∈ L) (hb : b ∈ L) : (if c then a else b) ∈ L := by
  split <;> assumption

/-- C4: PathCategorizer is total and deterministic — every path is
assigned exactly one of the 17 fixed categories by the ordered
first-match rules; in particular `/views/search/saved` falls to the
search category (rule 3 fires before the `/views` part of rule 7) and
`/views/dashboards` falls to the dashboards category. -/
theorem c4_categorizePath_total :
    (∀ p : String, categorizePath p ∈ allCategories) ∧
    categorizePath "/views/search/saved" = "core-search" ∧
    categorizePath "/views/dashboards" = "core-dashboard" := by
  refine ⟨?_, by decide, by decide⟩
  intro p
  unfold categorizePath
  repeat (first | apply ite_mem | decide)

/-! ### C9 — hierarchical tag building -/

/-- C9: the hierarchical tag splits the resource path on `/` into
non-empty segments, titleizes each (capitalizing `-`/`_`-separated words,
keeping an all-caps word unchanged, keeping a dotted segment verbatim)
and re-joins with `/`; `["system","inputs"]` yields `System/Inputs` and
`org.graylog.security` is preserved verbatim. -/
theorem c9_pathToHierTag :
    pathToHierTag (some "/system/inputs") = "System/Inputs" ∧
    (∀ seg : String, strHas seg "." = true → titleize seg = seg) ∧
    (∀ w : String, w ≠ "" →
      w.toList.all (fun ch => ch.isUpper || ch.isDigit) = true → capWord w = w) ∧
    (∀ rp : String, pathToHierTag (some rp) =
      joinSep "/" (((strSplit (fun c => c == '/') rp).filter
        (fun s => s != "")).map titleize)) := by
  refine ⟨by decide, ?_, ?_, ?_⟩
  · intro seg h
    unfold titleize
    rw [if_neg ?_, if_pos h]
    · intro he
      rw [show seg = "" from by simpa using he] at h
      simp [strHas, charsHas, charsStarts] at h
  · intro w hw hall
    unfold capWord
    split
    · next heq =>
      exact absurd (by apply String.ext; simpa using heq) hw
    · next c cs heq =>
      rw [if_pos (by rw [← heq]; exact hall)]
  · intro rp
    by_cases h : rp = ""
    · subst h; decide
    · simp [pathToHierTag, optStr, h]

theorem c9_witness :
    (strHas "org.graylog.security" "." = true ∧
     titleize "org.graylog.security" = "org.graylog.security") ∧
    (("AWS" : String) ≠ "" ∧
     "AWS".toList.all (fun ch => ch.isUpper || ch.isDigit) = true ∧
     capWord "AWS" = "AWS") :=
  ⟨⟨by decide, c9_pathToHierTag.2.1 "org.graylog.security" (by decide)⟩,
   ⟨by decide, by decide, c9_pathToHierTag.2.2.1 "AWS" (by decide) (by decide)⟩⟩

/-! ### C7 — schema classification -/

theorem classify_aux (names : List String) :
    ∀ (a b c : List String),
    names.foldl (fun acc n =>
      if isPluginName n then (acc.1, acc.2.1 ++ [n], acc.2.2)
      else if isCommonName n then (acc.1, acc.2.1, acc.2.2 ++ [n])
      else (acc.1 ++ [n], acc.2.1, acc.2.2)) (a, b, c) =
    (a ++ names.filter (fun n => !(isPluginName n) && !(isCommonName n)),
     b ++ names.filter (fun n => isPluginName n),
     c ++ names.filter (fun n => !(isPluginName n) && isCommonName n)) := by
  induction names with
  | nil => intro a b c; simp
  | cons n rest ih =>
    intro a b c
    simp only [List.foldl_cons, List.filter_cons]
    by_cases hp : isPluginName n
    · simpa [hp] using ih a (b ++ [n]) c
    · by_cases hcm : isCommonName n
      · simpa [hp, hcm] using ih a b (c ++ [n])
      · simpa [hp, hcm] using ih (a ++ [n]) b c

theorem classifySchemas_eq (names : List String) :
    classifySchemas names =
      (names.filter (fun n => !(isPluginName n) && !(isCommonName n)),
       names.filter (fun n => isPluginName n),
       names.filter (fun n => !(isPluginName n) && isCommonName n)) := by
  unfold classifySchemas
  simpa using classify_aux names [] [] []

/-- C7: SchemaClassifier partitions the merged model-name set: a name
lands in the plugin bucket iff it contains `plugin`/`Plugin`; otherwise
in the common bucket iff it contains `Response`/`Request` or is exactly
`Object`/`anyMap`/`integerMap`; otherwise in the core bucket. The three
buckets are pairwise disjoint and cover the whole input. -/
theorem c7_classify_partition (names : List String) :
    (∀ n, n ∈ (classifySchemas names).2.1 ↔
      n ∈ names ∧ isPluginName n = true) ∧
    (∀ n, n ∈ (classifySchemas names).2.2 ↔
      n ∈ names ∧ isPluginName n = false ∧ isCommonName n = true) ∧
    (∀ n, n ∈ (classifySchemas names).1 ↔
      n ∈ names ∧ isPluginName n = false ∧ isCommonName n = false) ∧
    (∀ n ∈ names, (n ∈ (classifySchemas names).1 ∨
      n ∈ (classifySchemas names).2.1 ∨ n ∈ (classifySchemas names).2.2)) ∧
    (∀ n, ¬(n ∈ (classifySchemas names).1 ∧ n ∈ (classifySchemas names).2.1) ∧
          ¬(n ∈ (classifySchemas names).1 ∧ n ∈ (classifySchemas names).2.2) ∧
          ¬(n ∈ (classifySchemas names).2.1 ∧ n ∈ (classifySchemas names).2.2)) := by
  rw [classifySchemas_eq]
  refine ⟨?_, ?_, ?_, ?_, ?_⟩
  · intro n
    simp [List.mem_filter]
  · intro n
    simp [List.mem_filter, Bool.not_eq_true', and_assoc]
  · intro n
    simp [List.mem_filter, Bool.not_eq_true', and_assoc]
  · intro n hn
    simp only [List.mem_filter, Bool.and_eq_true, Bool.not_eq_true']
    cases hp : isPluginName n
    · cases hcm : isCommonName n
      · exact Or.inl ⟨hn, rfl, rfl⟩
      · exact Or.inr (Or.inr ⟨hn, rfl, rfl⟩)
    · exact Or.inr (Or.inl ⟨hn, rfl⟩)
  · intro n
    simp only [List.mem_filter, Bool.and_eq_true, Bool.not_eq_true']
    refine ⟨?_, ?_, ?_⟩
    · rintro ⟨⟨-, h1, -⟩, -, h2⟩; rw [h1] at h2; exact Bool.noConfusion h2
    · rintro ⟨⟨-, -, h1⟩, -, -, h2⟩; rw [h1] at h2; exact Bool.noConfusion h2
    · rintro ⟨⟨-, h1⟩, -, h2, -⟩; rw [h2] at h1; exact Bool.noConfusion h1

theorem c7_witness :
    ("StreamDTO" ∈ ["StreamDTO", "PluginConfig", "SearchResponse"]) ∧
    ("StreamDTO" ∈
        (classifySchemas ["StreamDTO", "PluginConfig", "SearchResponse"]).1 ∨
     "StreamDTO" ∈
        (classifySchemas ["StreamDTO", "PluginConfig", "SearchResponse"]).2.1 ∨
     "StreamDTO" ∈
        (classifySchemas ["StreamDTO", "PluginConfig", "SearchResponse"]).2.2) :=
  ⟨by decide,
   (c7_classify_partition ["StreamDTO", "PluginConfig", "SearchResponse"]).2.2.2.1
     "StreamDTO" (by decide)⟩

/-! ### C8 — reference-repair idempotence -/

/-- C8: ReferenceRepair is idempotent: rewriting every schema reference
targeting one of the primitive names (string, integer, number, boolean,
array, object, any) into an inline `type:` declaration, applied twice to
a document set, gives the same result as applying it once. -/
theorem c8_referenceRepair_idem (docs : List (List Char)) :
    referenceRepair (referenceRepair docs) = referenceRepair docs := by
  unfold referenceRepair
  rw [List.map_map]
  exact List.map_congr_left (fun d _ => fixPrimitiveRefs_idem d)

/-! ### C5 — body-parameter extraction -/

theorem convertParameter_some_name {p : Param} {cp : ConvParam}
    (h : convertParameter p = some cp) : cp.name = p.name := by
  unfold convertParameter at h
  by_cases hb : (p.paramType == "body") = true
  · rw [if_pos hb] at h
    exact Option.noConfusion h
  · rw [if_neg hb] at h
    simp only [Option.some.injEq] at h
    subst h
    rfl

/-- C5: an operation whose parameter list contains a body parameter gets
a `requestBody` with the body parameter's required flag (defaulting to
false), a content map keyed only by `application/json`, and a schema
referencing the declared type when it is a non-empty name other than
`any` (an open object schema otherwise); and no body parameter reaches
the converted `parameters` array — every converted parameter originates
from a non-body source parameter. -/
theorem c5_bodyParam (op : Op) (path method flatTag : String)
    (hierTag : Option String) (b : Param)
    (hb : (op.parameters.getD []).find? (fun p => p.paramType == "body") = some b) :
    (convertOperation op path method flatTag hierTag).requestBody =
      some { required := b.required.getD false
             description := if optStr b.description != "" then b.description else none
             content := [("application/json",
               if optStr b.type != "" && optStr b.type != "any"
               then BodySchema.ref (optStr b.type) else BodySchema.obj)] } ∧
    ∀ cp ∈ (convertOperation op path method flatTag hierTag).parameters.getD [],
      ∃ p ∈ op.parameters.getD [], p.paramType ≠ "body" ∧ cp.name = p.name := by
  constructor
  · show ((op.parameters.getD []).find?
        (fun p => p.paramType == "body")).map mkRequestBody = _
    rw [hb]
    rfl
  · intro cp hcp
    have hcp' : cp ∈ ((op.parameters.getD []).filter
        (fun p => p.paramType != "body")).filterMap convertParameter := by
      by_cases hlen : ((op.parameters.getD []).filter
          (fun p => p.paramType != "body")).length > 0
      · simpa [convertOperation, hlen] using hcp
      · simp [convertOperation, hlen] at hcp
    obtain ⟨p, hpmem, hpc⟩ := List.mem_filterMap.mp hcp'
    have hpf := List.mem_filter.mp hpmem
    exact ⟨p, hpf.1, by simpa using hpf.2, convertParameter_some_name hpc⟩

/-- Concrete operation exercising body-parameter extraction. -/
def c5Op : Op :=
  { method := some "POST"
    nickname := some "createStream"
    parameters := some
      [ { name := "stream", paramType := "body", type := some "StreamDTO",
          required := some true } ]
    type := some "StreamDTO" }

theorem c5_witness :
    ((c5Op.parameters.getD []).find? (fun p => p.paramType == "body") =
      some { name := "stream", paramType := "body", type := some "StreamDTO",
             required := some true }) ∧
    ((convertOperation c5Op "/streams" "post" "Streams" none).requestBody =
      some { required := true
             description := none
             content := [("application/json", BodySchema.ref "StreamDTO")] } ∧
     ∀ cp ∈ (convertOperation c5Op "/streams" "post" "Streams" none).parameters.getD [],
       ∃ p ∈ c5Op.parameters.getD [], p.paramType ≠ "body" ∧ cp.name = p.name) := by
  refine ⟨by decide, ?_⟩
  have h := c5_bodyParam c5Op "/streams" "post" "Streams" none
    { name := "stream", paramType := "body", type := some "StreamDTO",
      required := some true } (by decide)
  refine ⟨?_, h.2⟩
  rw [h.1]
  decide

/-! ### C10 — later body parameters are ignored -/

/-- Keep every parameter except body parameters occurring after the
first body parameter. -/
def dropLaterBodies : List Param → List Param
  | [] => []
  | p :: ps =>
    if p.paramType == "body" then p :: ps.filter (fun q => q.paramType != "body")
    else p :: dropLaterBodies ps

theorem filter_dropLaterBodies (ps : List Param) :
    (dropLaterBodies ps).filter (fun p => p.paramType != "body") =
      ps.filter (fun p => p.paramType != "body") := by
  induction ps with
  | nil => rfl
  | cons p ps ih =>
    by_cases h : p.paramType == "body"
    · have hf : (p.paramType != "body") = false := by
        simp only [bne, h, Bool.not_true]
      simp only [dropLaterBodies, h, if_true, List.filter_cons, hf,
        Bool.false_eq_true, if_false, List.filter_filter, Bool.and_self]
    · have ht : (p.paramType != "body") = true := by
        simp only [bne, h, Bool.not_false]
      simp only [dropLaterBodies, h, Bool.false_eq_true, if_false,
        List.filter_cons, ht, if_true, ih]

theorem find_dropLaterBodies (ps : List Param) :
    (dropLaterBodies ps).find? (fun p => p.paramType == "body") =
      ps.find? (fun p => p.paramType == "body") := by
  induction ps with
  | nil => rfl
  | cons p ps ih =>
    by_cases h : p.paramType == "body"
    · simp [dropLaterBodies, h, List.find?_cons]
    · simp [dropLaterBodies, h, List.find?_cons, ih]

/-- C10: when the parameter list has two or more body entries, only the
first (in list order) determines the `requestBody`; every later body
entry contributes nothing — the whole conversion result is the same as
if the later body entries were removed, and they appear neither in
`parameters` nor in `requestBody`. -/
theorem c10_laterBodiesIgnored (op : Op) (path method flatTag : String)
    (hierTag : Option String)
    (h2 : 2 ≤ ((op.parameters.getD []).filter
      (fun p => p.paramType == "body")).length) :
    convertOperation op path method flatTag hierTag =
      convertOperation
        { op with parameters := some (dropLaterBodies (op.parameters.getD [])) }
        path method flatTag hierTag ∧
    (convertOperation op path method flatTag hierTag).requestBody =
      ((op.parameters.getD []).find?
        (fun p => p.paramType == "body")).map mkRequestBody := by
  refine ⟨?_, rfl⟩
  unfold convertOperation
  simp only [Option.getD_some]
  rw [filter_dropLaterBodies, find_dropLaterBodies]
  rfl

/-- Concrete operation with two body parameters. -/
def c10Op : Op :=
  { parameters := some
      [ { name := "first", paramType := "body", type := some "A",
          required := some true },
        { name := "second", paramType := "body", type := some "B" },
        { name := "q", paramType := "query", type := some "string" } ] }

theorem c10_witness :
    2 ≤ ((c10Op.parameters.getD []).filter
      (fun p => p.paramType == "body")).length ∧
    (convertOperation c10Op "/x" "post" "Tag" none =
      convertOperation
        { c10Op with parameters := some (dropLaterBodies (c10Op.parameters.getD [])) }
        "/x" "post" "Tag" none ∧
     (convertOperation c10Op "/x" "post" "Tag" none).requestBody =
      ((c10Op.parameters.getD []).find?
        (fun p => p.paramType == "body")).map mkRequestBody) :=
  ⟨by decide, c10_laterBodiesIgnored c10Op "/x" "post" "Tag" none (by decide)⟩

/-! ### C6 — frame property of the second response-message walk -/

/-- C6: one step of the second walk over `responseMessages`: for an entry
whose code equals the chosen success code, only the description of that
response is changed (to the entry's message when non-empty, otherwise the
previous description is kept), while its content block is preserved and
every other key is untouched; for an entry with any other code, exactly
that key gains (or has replaced) a description-only entry with no
content, and every other key is untouched. -/
theorem c6_respStep_frame (sc : String) (resps : List (String × RespEntry))
    (rm : RM) :
    (codeStrMerge rm = sc →
      ∀ old, lookupAssoc resps sc = some old →
        lookupAssoc (respStep sc resps rm) sc =
          some { description :=
                   if optStr rm.message != "" then optStr rm.message
                   else if old.description != "" then old.description
                   else "Successful response"
                 content := old.content } ∧
        ∀ c, c ≠ sc →
          lookupAssoc (respStep sc resps rm) c = lookupAssoc resps c) ∧
    (codeStrMerge rm ≠ sc →
      lookupAssoc (respStep sc resps rm) (codeStrMerge rm) =
        some { description := optStr rm.message, content := none } ∧
      ∀ c, c ≠ codeStrMerge rm →
        lookupAssoc (respStep sc resps rm) c = lookupAssoc resps c) := by
  constructor
  · intro hcode old hold
    unfold respStep
    rw [hcode, if_pos (by simp), hold]
    simp only [Option.getD_some]
    exact ⟨lookup_update_self _ _ _, fun c hc => lookup_update_other _ _ _ _ hc⟩
  · intro hcode
    unfold respStep
    rw [if_neg (by simpa using hcode)]
    exact ⟨lookup_update_self _ _ _, fun c hc => lookup_update_other _ _ _ _ hc⟩

theorem c6_witness :
    ((codeStrMerge ⟨some 200, some "The stream"⟩ = "200") ∧
     lookupAssoc
       (respStep "200"
         [("200", { description := "Successful response",
                    content := some [("application/json", BodySchema.ref "StreamDTO")] })]
         ⟨some 200, some "The stream"⟩) "200" =
       some { description := "The stream",
              content := some [("application/json", BodySchema.ref "StreamDTO")] }) ∧
    ((codeStrMerge ⟨some 404, some "Stream not found"⟩ ≠ "200") ∧
     lookupAssoc
       (respStep "200"
         [("200", { description := "Successful response",
                    content := some [("application/json", BodySchema.ref "StreamDTO")] })]
         ⟨some 404, some "Stream not found"⟩) "404" =
       some { description := "Stream not found", content := none }) := by
  constructor
  · refine ⟨by decide, ?_⟩
    have h := (c6_respStep_frame "200"
      [("200", { description := "Successful response",
                 content := some [("application/json", BodySchema.ref "StreamDTO")] })]
      ⟨some 200, some "The stream"⟩).1 (by decide)
      { description := "Successful response",
        content := some [("application/json", BodySchema.ref "StreamDTO")] } (by decide)
    rw [h.1]
    decide
  · refine ⟨by decide, ?_⟩
    have h := (c6_respStep_frame "200"
      [("200", { description := "Successful response",
                 content := some [("application/json", BodySchema.ref "StreamDTO")] })]
      ⟨some 404, some "Stream not found"⟩).2 (by decide)
    rw [show ("404" : String) = codeStrMerge ⟨some 404, some "Stream not found"⟩ from by decide]
    rw [h.1]
    decide

/-! ### C3 — number of success codes in the response map -/

theorem firstSuccessCode_mem {l : List RM} {c : String}
    (h : firstSuccessCode l = some c) :
    successCodes.contains c = true ∧ ∃ rm ∈ l, codeStrScan rm = c := by
  induction l with
  | nil => exact Option.noConfusion h
  | cons rm rest ih =>
    by_cases hc : successCodes.contains (codeStrScan rm) = true
    · simp only [firstSuccessCode, hc, if_true, Option.some.injEq] at h
      subst h
      exact ⟨hc, rm, List.mem_cons_self _ _, rfl⟩
    · simp only [firstSuccessCode, hc, Bool.false_eq_true, if_false] at h
      obtain ⟨h1, rm0, h2, h3⟩ := ih h
      exact ⟨h1, rm0, List.mem_cons_of_mem _ h2, h3⟩

theorem firstSuccessCode_none {l : List RM} (h : firstSuccessCode l = none) :
    ∀ rm ∈ l, successCodes.contains (codeStrScan rm) = false := by
  induction l with
  | nil => intro rm hrm; simp at hrm
  | cons rm0 rest ih =>
    intro rm hrm
    simp only [firstSuccessCode] at h
    by_cases hc : successCodes.contains (codeStrScan rm0) = true
    · rw [if_pos hc] at h
      exact Option.noConfusion h
    · rw [if_neg hc] at h
      rcases List.mem_cons.mp hrm with rfl | hmem
      · exact (Bool.not_eq_true _).mp hc
      · exact ih h rm hmem

theorem scan_merge_agree {rm : RM}
    (h : successCodes.contains (codeStrScan rm) = true) :
    codeStrMerge rm = codeStrScan rm := by
  cases hc : rm.code with
  | none =>
    simp only [codeStrScan, hc] at h
    exact absurd h (by decide)
  | some c =>
    by_cases h0 : c = 0
    · subst h0
      simp only [codeStrScan, hc] at h
      exact absurd h (by decide)
    · simp only [codeStrScan, codeStrMerge, hc]
      rw [if_neg (by simpa using h0)]

theorem merge_success_scan {rm : RM}
    (h : successCodes.contains (codeStrMerge rm) = true) :
    codeStrScan rm = codeStrMerge rm := by
  cases hc : rm.code with
  | none =>
    simp only [codeStrMerge, hc] at h
    exact absurd h (by decide)
  | some c =>
    by_cases h0 : c = 0
    · subst h0
      simp only [codeStrMerge, hc] at h
      exact absurd h (by decide)
    · simp only [codeStrScan, codeStrMerge, hc]
      rw [if_neg (by simpa using h0)]

theorem chosen_in_success (op : Op) (path method : String) :
    successCodes.contains (chosenSuccessCode op path method) = true := by
  unfold chosenSuccessCode
  cases hfs : firstSuccessCode (op.responseMessages.getD []) with
  | some c => exact (firstSuccessCode_mem hfs).1
  | none => split_ifs <;> decide

/-- Both branches of `respStep` update the map at the key
`codeStrMerge rm`, so the key list either stays put or gains that key. -/
theorem respStep_keys (sc : String) (m : List (String × RespEntry)) (rm : RM) :
    (respStep sc m rm).map Prod.fst =
      if codeStrMerge rm ∈ m.map Prod.fst then m.map Prod.fst
      else m.map Prod.fst ++ [codeStrMerge rm] := by
  unfold respStep
  by_cases h : (codeStrMerge rm == sc) = true
  · rw [if_pos h, keys_update]
  · rw [if_neg h, keys_update]

theorem respSteps_success_keys (sc : String) :
    ∀ (rms : List RM) (m : List (String × RespEntry)),
      (∀ rm ∈ rms, codeStrMerge rm = sc ∨
        successCodes.contains (codeStrMerge rm) = false) →
      ((m.map Prod.fst).Nodup ∧ sc ∈ m.map Prod.fst ∧
        (∀ k ∈ m.map Prod.fst, successCodes.contains k = true → k = sc)) →
      (((rms.foldl (respStep sc) m).map Prod.fst).Nodup ∧
        sc ∈ (rms.foldl (respStep sc) m).map Prod.fst ∧
        (∀ k ∈ (rms.foldl (respStep sc) m).map Prod.fst,
          successCodes.contains k = true → k = sc)) := by
  intro rms
  induction rms with
  | nil => intro m _ h; exact h
  | cons rm rest ih =>
    intro m hcond hm
    simp only [List.foldl_cons]
    apply ih
    · intro x hx; exact hcond x (List.mem_cons_of_mem _ hx)
    · obtain ⟨hnd, hmem, hall⟩ := hm
      rw [respStep_keys]
      by_cases hk : codeStrMerge rm ∈ m.map Prod.fst
      · rw [if_pos hk]
        exact ⟨hnd, hmem, hall⟩
      · rw [if_neg hk]
        refine ⟨?_, List.mem_append_left _ hmem, ?_⟩
        · rw [List.nodup_append]
          exact ⟨hnd, List.nodup_singleton _,
            fun a ha hb => by simp at hb; subst hb; exact hk ha⟩
        · intro k hkmem hks
          rcases List.mem_append.mp hkmem with h1 | h1
          · exact hall k h1 hks
          · have hk1 : k = codeStrMerge rm := by simpa using h1
            subst hk1
            rcases hcond rm (List.mem_cons_self _ _) with h2 | h2
            · exact h2
            · rw [hks] at h2; exact Bool.noConfusion h2

theorem filter_length_one {l : List String} {a : String} {p : String → Bool}
    (hnd : l.Nodup) (ha : a ∈ l) (hall : ∀ x ∈ l, p x = true → x = a)
    (hpa : p a = true) : (l.filter p).length = 1 := by
  induction l with
  | nil => simp at ha
  | cons x xs ih =>
    obtain ⟨hx_notin, hxs_nd⟩ := List.nodup_cons.mp hnd
    by_cases hx : x = a
    · subst hx
      rw [List.filter_cons, if_pos (by rw [hpa])]
      have hempty : xs.filter p = [] := by
        rw [List.filter_eq_nil_iff]
        intro y hy hpy
        have : y = x := hall y (List.mem_cons_of_mem _ hy) hpy
        subst this
        exact hx_notin hy
      rw [hempty]
      rfl
    · cases hpx : p x with
      | true => exact absurd (hall x (List.mem_cons_self _ _) hpx) hx
      | false =>
        rw [List.filter_cons, if_neg (by rw [hpx]; simp)]
        have ha' : a ∈ xs := by
          rcases List.mem_cons.mp ha with rfl | hmem
          · exact absurd rfl hx
          · exact hmem
        exact ih hxs_nd ha' (fun y hy hpy => hall y (List.mem_cons_of_mem _ hy) hpy)

/-- Generic form of the amended C3 over the response-map fold. -/
theorem c3_core (rms : List RM) (sc : String) (e : RespEntry)
    (hsc : successCodes.contains sc = true)
    (hcond : ∀ rm ∈ rms, codeStrMerge rm = sc ∨
      successCodes.contains (codeStrMerge rm) = false) :
    (((rms.foldl (respStep sc) [(sc, e)]).map Prod.fst).filter
      (fun k => successCodes.contains k)).length = 1 := by
  have hinv := respSteps_success_keys sc rms [(sc, e)] hcond
    (by constructor
        · simp
        · constructor
          · simp
          · intro k hk _
            simpa using hk)
  obtain ⟨hnd, hmem, hall⟩ := hinv
  exact filter_length_one hnd hmem hall hsc

/-- Concrete operation whose `responseMessages` mixes two success codes. -/
def c3Op : Op :=
  { method := some "GET"
    responseMessages := some [⟨some 200, some "ok"⟩, ⟨some 204, some "no content"⟩] }

/-- C3 is false as stated: an operation whose `responseMessages` lists
both 200 and 204 ends up with two success status codes in its response
map (200 chosen as primary, 204 merged back in by the second walk). -/
theorem c3_counterexample :
    (((convertOperation c3Op "/x" "get" "Tag" none).responses.map Prod.fst).filter
      (fun k => successCodes.contains k)).length = 2 := by decide

/-- C3 (amended): when `responseMessages` does not mix several distinct
codes from {200, 201, 202, 204} (at most one distinct success code
appears, possibly repeated), the converted response map contains exactly
one declared success status code. -/
theorem c3_amended (op : Op) (path method flatTag : String)
    (hierTag : Option String)
    (huni : ∀ rm1 ∈ op.responseMessages.getD [],
      ∀ rm2 ∈ op.responseMessages.getD [],
      successCodes.contains (codeStrMerge rm1) = true →
      successCodes.contains (codeStrMerge rm2) = true →
      codeStrMerge rm1 = codeStrMerge rm2) :
    (((convertOperation op path method flatTag hierTag).responses.map
        Prod.fst).filter (fun k => successCodes.contains k)).length = 1 := by
  have hcond : ∀ rm ∈ op.responseMessages.getD [],
      codeStrMerge rm = chosenSuccessCode op path method ∨
      successCodes.contains (codeStrMerge rm) = false := by
    intro rm hrm
    by_cases h : successCodes.contains (codeStrMerge rm) = true
    · left
      have hscan : successCodes.contains (codeStrScan rm) = true := by
        rw [merge_success_scan h]
        exact h
      cases hfs : firstSuccessCode (op.responseMessages.getD []) with
      | none =>
        have := firstSuccessCode_none hfs rm hrm
        rw [hscan] at this
        exact Bool.noConfusion this
      | some c =>
        obtain ⟨hc, rm0, hrm0, hceq⟩ := firstSuccessCode_mem hfs
        have hchosen : chosenSuccessCode op path method = c := by
          unfold chosenSuccessCode
          rw [hfs]
        rw [hchosen]
        have h1 : codeStrMerge rm0 = codeStrScan rm0 :=
          scan_merge_agree (by rw [hceq]; exact hc)
        have h2 : successCodes.contains (codeStrMerge rm0) = true := by
          rw [h1, hceq]; exact hc
        rw [huni rm hrm rm0 hrm0 h h2, h1, hceq]
    · right
      exact (Bool.not_eq_true _).mp h
  exact c3_core (op.responseMessages.getD []) (chosenSuccessCode op path method)
    _ (chosen_in_success op path method) hcond

/-- Concrete operation with a single success code among its response
messages. -/
def c3AmendedOp : Op :=
  { method := some "GET"
    responseMessages := some [⟨some 200, some "ok"⟩, ⟨some 404, some "missing"⟩] }

theorem c3_witness :
    (∀ rm1 ∈ c3AmendedOp.responseMessages.getD [],
      ∀ rm2 ∈ c3AmendedOp.responseMessages.getD [],
      successCodes.contains (codeStrMerge rm1) = true →
      successCodes.contains (codeStrMerge rm2) = true →
      codeStrMerge rm1 = codeStrMerge rm2) ∧
    (((convertOperation c3AmendedOp "/x" "get" "Tag" none).responses.map
        Prod.fst).filter (fun k => successCodes.contains k)).length = 1 :=
  ⟨by decide, c3_amended c3AmendedOp "/x" "get" "Tag" none (by decide)⟩

/-! ### C1 — `apis` entries with no path -/

/-- A minimal operation descriptor. -/
def c1GoodOp : Op := { method := some "GET", nickname := some "listStreams" }

/-- An `apis` entry with no `path` (the input-contract violation of the
claim). -/
def c1BadEntry : ApiEntry := { path := none, operations := some [c1GoodOp] }

/-- A well-formed `apis` entry alongside it. -/
def c1GoodEntry : ApiEntry :=
  { path := some "/streams", operations := some [c1GoodOp] }

/-- A one-document input whose `apis` contains a path-less entry first. -/
def c1Input : List Endpoint :=
  [{ resourcePath := some "/streams", apis := some [c1BadEntry, c1GoodEntry] }]

/-- C1 is false as stated: on an input whose `apis` holds an entry with
no path, the run does not abort — the guard
`if (api.path && api.operations)` silently skips that entry and the
remaining entries are converted, producing (partial) output: here the
`core-streams` category is populated. -/
theorem c1_counterexample :
    (lookupAssoc (processEndpoints c1Input) "core-streams").isSome = true ∧
    (processEndpoints c1Input).length = 1 := by decide

theorem processApi_skip (rp : Option String) (dp : DomainPaths)
    (api : ApiEntry) (h : optStr api.path = "") :
    processApi rp dp api = dp := by
  unfold processApi
  rw [h]
  simp

/-- C1 (amended): an `apis` entry whose `path` is missing or empty is
silently skipped — it contributes nothing — and the run continues with
the remaining entries, producing their output; no failure is raised. -/
theorem c1_amended (dp : DomainPaths) (rp : Option String)
    (pre post : List ApiEntry) (bad : ApiEntry)
    (hbad : optStr bad.path = "") :
    processEndpoint dp
      { resourcePath := rp, apis := some (pre ++ bad :: post) } =
    processEndpoint dp { resourcePath := rp, apis := some (pre ++ post) } := by
  show (pre ++ bad :: post).foldl (processApi rp) dp =
    (pre ++ post).foldl (processApi rp) dp
  rw [List.foldl_append, List.foldl_append, List.foldl_cons,
    processApi_skip rp _ bad hbad]

theorem c1_witness :
    optStr c1BadEntry.path = "" ∧
    processEndpoint ([] : DomainPaths)
      { resourcePath := some "/streams",
        apis := some ([] ++ c1BadEntry :: [c1GoodEntry]) } =
    processEndpoint ([] : DomainPaths)
      { resourcePath := some "/streams", apis := some ([] ++ [c1GoodEntry]) } :=
  ⟨by decide,
   c1_amended ([] : DomainPaths) (some "/streams") [] [c1GoodEntry] c1BadEntry
     (by decide)⟩

end GraylogConv
